import Mathlib

/-!
Shallow embedding of src/main.rs (a windowed sieve of Eratosthenes backed by
a binary record store) together with proofs about the specification claims.

Modelling conventions:
* u64 arithmetic is modelled in ℕ.  Every u64 operation of the program agrees
  with its ℕ counterpart as long as no wraparound occurs; the one place where
  wraparound is part of a claim (the outer loop counter, claim C10) is
  modelled with an explicit `% 2 ^ 64`.
* The binary file is modelled at two levels.  The store-level functions
  (`sieve` and its phases) treat the file as the list of its 16-byte records,
  which is faithful because every write is a whole record at a record-aligned
  offset.  The byte-level functions (`prime_read`, `prime_write`,
  `prime_bin2csv`) work on the raw byte list, as the source does.
* `thread::sleep` has no effect on any program variable; each sleep site is
  modelled by incrementing a sleep counter, so that claims about the `fast`
  flag can compare the store output with the sleep count.
-/

namespace Main

/-- The record of the binary store: struct Prime (main.rs lines 31-35),
two u64 fields `p` and `nextval`, 16 bytes in total. -/
structure Prime where
  p : Nat
  nextval : Nat
deriving DecidableEq

/-- The eight bytes of a u64, least significant first, as produced by
`u64::to_ne_bytes` on a little-endian host (main.rs lines 65-66). -/
def u64ToBytes (x : Nat) : List Nat :=
  [x % 256, x / 256 % 256, x / 65536 % 256, x / 16777216 % 256,
   x / 4294967296 % 256, x / 1099511627776 % 256,
   x / 281474976710656 % 256, x / 72057594037927936 % 256]

/-- Model of `u64::from_ne_bytes` applied to the first eight bytes of the
list (main.rs lines 53-54). -/
def u64FromBytes (bs : List Nat) : Nat :=
  (bs.take 8).foldr (fun b acc => b + 256 * acc) 0

/-- prime_read (main.rs lines 48-61) on the bytes remaining at the cursor.
`read_exact` fills the 16-byte buffer when at least 16 bytes remain;
otherwise it raises `ErrorKind::UnexpectedEof`, which the `match` arm at
line 58 maps to `Ok(false)` - the "no more records" sentinel, modelled as
`Except.ok none`.  An `Err` of any other kind (line 59) would be propagated,
but no such error can arise on an in-memory byte list, so the model never
produces `Except.error`. -/
def prime_read (bytes : List Nat) : Except String (Option (Prime × List Nat)) :=
  if 16 ≤ bytes.length then
    Except.ok (some (⟨u64FromBytes (bytes.take 8), u64FromBytes (bytes.drop 8)⟩,
      bytes.drop 16))
  else
    Except.ok none

/-- prime_write (main.rs lines 63-68): the 16 bytes appended to the file for
one record, `p`'s bytes followed by `nextval`'s bytes. -/
def prime_write (r : Prime) : List Nat :=
  u64ToBytes r.p ++ u64ToBytes r.nextval

/-- The byte contents of a store holding the given records in order
(each record written by prime_write). -/
def storeBytes (rs : List Prime) : List Nat :=
  (rs.map prime_write).flatten

/-- The text line the exporter writes for one record:
`writeln!(writer, "{},{}", prime.p, prime.nextval)` (main.rs line 83). -/
def primeLine (r : Prime) : String :=
  toString r.p ++ "," ++ toString r.nextval ++ "\n"

/-- prime_bin2csv (main.rs lines 75-91) on the byte contents of the input
file, with the running `count` and the sleep counter as explicit state.
Returns the list of lines written, the final count (the function's return
value), and the number of sleeps performed.  The source increments `count`,
writes the line, then sleeps when `!fast && count % 10_000 == 0`. -/
def prime_bin2csv (fast : Bool) (bytes : List Nat) (count sleeps : Nat) :
    List String × Nat × Nat :=
  match h : prime_read bytes with
  | Except.ok (some (r, rest)) =>
      have hlen : rest.length < bytes.length := by
        unfold prime_read at h
        split at h
        · simp only [Except.ok.injEq, Option.some.injEq, Prod.mk.injEq] at h
          rcases h with ⟨-, h2⟩
          subst h2
          simp only [List.length_drop]
          omega
        · simp at h
      let count' := count + 1
      let sleeps' := if fast = false ∧ count' % 10000 = 0 then sleeps + 1 else sleeps
      let rest' := prime_bin2csv fast rest count' sleeps'
      (primeLine r :: rest'.1, rest'.2)
  | Except.ok none => ([], count, sleeps)
  | Except.error _ => ([], count, sleeps)
termination_by bytes.length

/-- The inner multiple-marking loop of the sieve.  It is the loop body shared
by the mark phase (main.rs lines 107-118, sleep threshold 1_000_000) and the
discover phase (main.rs lines 136-147, sleep threshold 100_000); `sleepMod`
is that threshold.  Starting from `nextval`, it marks `nextval - c` in the
window buffer (when in range) and advances `nextval` by `p` until `nextval`
leaves `[c, c + W)`.  Returns the final `nextval`, the buffer, and the sleep
counter.  The conjunct `0 < p` in the guard only makes the recursion
well-founded: the program runs this loop only for records with `p ≥ 1`,
where the conjunct is vacuously true (for `p = 0` and `nextval < c + W` the
source would never exit the loop). -/
def markLoop (fast : Bool) (sleepMod p W c : Nat) (nextval : Nat)
    (buf : List Bool) (sleeps : Nat) : Nat × List Bool × Nat :=
  if h : 0 < p ∧ nextval < c + W then
    let val := nextval - c
    let sleeps' := if val < W ∧ fast = false ∧ nextval % sleepMod = 0
      then sleeps + 1 else sleeps
    let buf' := if val < W then buf.set val false else buf
    markLoop fast sleepMod p W c (nextval + p) buf' sleeps'
  else
    (nextval, buf, sleeps)
termination_by c + W - nextval
decreasing_by omega

/-- The mark phase of one window (main.rs lines 106-126): one sequential
pass over the store; a record whose `nextval` entered the window
(`entered_loop`) is rewritten in place - prime_unread then prime_write,
main.rs lines 122-125 - with its advanced `nextval`, keeping its `p` and
its position; all other records are left untouched. -/
def markPhase (fast : Bool) (W c : Nat) :
    List Prime → List Bool → Nat → List Prime × List Bool × Nat
  | [], buf, sleeps => ([], buf, sleeps)
  | r :: rs, buf, sleeps =>
    if r.nextval < c + W then
      let res := markLoop fast 1000000 r.p W c r.nextval buf sleeps
      let rest := markPhase fast W c rs res.2.1 res.2.2
      (⟨r.p, res.1⟩ :: rest.1, rest.2)
    else
      let rest := markPhase fast W c rs buf sleeps
      (r :: rest.1, rest.2)

/-- The discover phase of one window (main.rs lines 128-150): scan
`potential_prime` over the `n` values starting at `pot` (the source range
`start_p..current_window + buffer_size`).  A candidate still marked true is
a new prime: its multiples from `p + p` on are sieved out of the remainder
of the window, and the record `(p, advanced nextval)` is appended
(prime_write at end-of-file, main.rs line 149).  `acc` is the list of
records appended so far in this phase. -/
def discoverFrom (fast : Bool) (W c : Nat) :
    Nat → Nat → List Bool → List Prime → Nat → List Prime × List Bool × Nat
  | _, 0, buf, acc, sleeps => (acc, buf, sleeps)
  | pot, n + 1, buf, acc, sleeps =>
    let val := pot - c
    if val < W ∧ buf.getD val false = true then
      let res := markLoop fast 100000 pot W c (pot + pot) buf sleeps
      discoverFrom fast W c (pot + 1) n res.2.1 (acc ++ [⟨pot, res.1⟩]) res.2.2
    else
      discoverFrom fast W c (pot + 1) n buf acc sleeps

/-- One iteration of the outer window loop of sieve (main.rs lines 99-152):
refill the window buffer with true, run the mark phase over the store, then
the discover phase from `start_p = if current_window == 0 { 2 } else
{ current_window }` (main.rs line 129), appending the newly discovered
records; the trailing `seek(Start(0))` rewinds for the next pass.  Returns
the store and the sleep counter after the window. -/
def windowStep (fast : Bool) (W c : Nat) (store : List Prime) (sleeps : Nat) :
    List Prime × Nat :=
  let buf := List.replicate W true
  let m := markPhase fast W c store buf sleeps
  let start_p := if c = 0 then 2 else c
  let d := discoverFrom fast W c start_p (c + W - start_p) m.2.1 [] m.2.2
  (m.1 ++ d.1, d.2.2)

/-- The outer while loop of sieve (main.rs lines 98-153), from window start
`c` and the given store contents.  The conjunct `0 < W` in the guard only
makes the recursion well-founded: for `W = 0` and `c < U` the source never
exits the loop, which is claim C10's subject (see `currentAt`). -/
def sieveLoop (fast : Bool) (W U : Nat) (c : Nat) (store : List Prime)
    (sleeps : Nat) : List Prime × Nat :=
  if h : c < U ∧ 0 < W then
    let st := windowStep fast W c store sleeps
    sieveLoop fast W U (c + W) st.1 st.2
  else
    (store, sleeps)
termination_by U - c
decreasing_by omega

/-- sieve (main.rs lines 93-157): the run starts at `current_window = 0`
with the freshly created, empty store (files_remove ran before). -/
def sieve (W U : Nat) (fast : Bool) : List Prime × Nat :=
  sieveLoop fast W U 0 [] 0

/-- The successive values of the u64 variable `current_window` across
iterations of sieve's outer loop: it starts at 0 (main.rs line 94) and each
iteration ends with `current_window += buffer_size` (main.rs line 152),
wrapping modulo 2^64 as u64 addition does. -/
def currentAt (W : Nat) : Nat → Nat
  | 0 => 0
  | n + 1 => (currentAt W n + W) % 2 ^ 64

/-! ### Facts about the inner marking loop -/

/-- One unfolding of `markLoop` when the guard holds. -/
theorem markLoop_eq_pos (fast : Bool) (m p W c nv : Nat) (buf : List Bool)
    (sleeps : Nat) (hg : 0 < p ∧ nv < c + W) :
    markLoop fast m p W c nv buf sleeps =
      markLoop fast m p W c (nv + p)
        (if nv - c < W then buf.set (nv - c) false else buf)
        (if nv - c < W ∧ fast = false ∧ nv % m = 0 then sleeps + 1 else sleeps) := by
  conv_lhs => rw [markLoop]
  rw [dif_pos hg]

/-- One unfolding of `markLoop` when the guard fails. -/
theorem markLoop_eq_neg (fast : Bool) (m p W c nv : Nat) (buf : List Bool)
    (sleeps : Nat) (hg : ¬(0 < p ∧ nv < c + W)) :
    markLoop fast m p W c nv buf sleeps = (nv, buf, sleeps) := by
  conv_lhs => rw [markLoop]
  rw [dif_neg hg]

/-- The marking loop only ever adds multiples of `p` to `nextval`. -/
theorem markLoop_fst_add (fast : Bool) (m p W c : Nat) :
    ∀ k nv buf sleeps, c + W - nv ≤ k →
      ∃ j, (markLoop fast m p W c nv buf sleeps).1 = nv + j * p := by
  intro k
  induction k with
  | zero =>
    intro nv buf sleeps hk
    rw [markLoop, dif_neg (by omega)]
    exact ⟨0, by simp⟩
  | succ k ih =>
    intro nv buf sleeps hk
    by_cases hg : 0 < p ∧ nv < c + W
    · rw [markLoop, dif_pos hg]
      obtain ⟨j, hj⟩ :=
        ih (nv + p) (if nv - c < W then buf.set (nv - c) false else buf)
          (if nv - c < W ∧ fast = false ∧ nv % m = 0 then sleeps + 1 else sleeps)
          (by omega)
      exact ⟨j + 1, by rw [hj]; ring⟩
    · rw [markLoop, dif_neg hg]
      exact ⟨0, by simp⟩

/-- For a positive `p` the marking loop leaves `nextval` only at or beyond
the end of the window. -/
theorem markLoop_fst_ge (fast : Bool) (m p W c : Nat) (hp : 0 < p) :
    ∀ k nv buf sleeps, c + W - nv ≤ k →
      c + W ≤ (markLoop fast m p W c nv buf sleeps).1 := by
  intro k
  induction k with
  | zero =>
    intro nv buf sleeps hk
    rw [markLoop, dif_neg (by omega)]
    omega
  | succ k ih =>
    intro nv buf sleeps hk
    by_cases hg : 0 < p ∧ nv < c + W
    · rw [markLoop, dif_pos hg]
      exact ih (nv + p) _ _ (by omega)
    · rw [markLoop, dif_neg hg]
      omega

/-- The fast flag and the incoming sleep count influence neither the final
`nextval` nor the buffer produced by the marking loop. -/
theorem markLoop_indep (f₁ f₂ : Bool) (m p W c : Nat) :
    ∀ k nv buf s₁ s₂, c + W - nv ≤ k →
      (markLoop f₁ m p W c nv buf s₁).1 = (markLoop f₂ m p W c nv buf s₂).1
      ∧ (markLoop f₁ m p W c nv buf s₁).2.1
        = (markLoop f₂ m p W c nv buf s₂).2.1 := by
  intro k
  induction k with
  | zero =>
    intro nv buf s₁ s₂ hk
    rw [markLoop_eq_neg f₁ m p W c nv buf s₁ (by omega),
      markLoop_eq_neg f₂ m p W c nv buf s₂ (by omega)]
    exact ⟨rfl, rfl⟩
  | succ k ih =>
    intro nv buf s₁ s₂ hk
    by_cases hg : 0 < p ∧ nv < c + W
    · rw [markLoop_eq_pos f₁ m p W c nv buf s₁ hg,
        markLoop_eq_pos f₂ m p W c nv buf s₂ hg]
      exact ih (nv + p) (if nv - c < W then buf.set (nv - c) false else buf)
        _ _ (by omega)
    · rw [markLoop_eq_neg f₁ m p W c nv buf s₁ hg,
        markLoop_eq_neg f₂ m p W c nv buf s₂ hg]
      exact ⟨rfl, rfl⟩

/-- Fuel-free form of `markLoop_fst_add`. -/
theorem markLoop_add (fast : Bool) (m p W c nv : Nat) (buf : List Bool)
    (sleeps : Nat) :
    ∃ j, (markLoop fast m p W c nv buf sleeps).1 = nv + j * p :=
  markLoop_fst_add fast m p W c (c + W - nv) nv buf sleeps le_rfl

/-- Fuel-free form of `markLoop_fst_ge`. -/
theorem markLoop_ge (fast : Bool) (m p W c nv : Nat) (buf : List Bool)
    (sleeps : Nat) (hp : 0 < p) :
    c + W ≤ (markLoop fast m p W c nv buf sleeps).1 :=
  markLoop_fst_ge fast m p W c hp (c + W - nv) nv buf sleeps le_rfl

/-! ### Facts about the mark phase -/

/-- The mark phase never changes a record's `p`, drops a record, or changes
the order: the sequence of `p` values in file order is untouched (the
in-place rewrite at main.rs lines 122-125 only updates `nextval`). -/
theorem markPhase_map_p (fast : Bool) (W c : Nat) :
    ∀ store buf sleeps,
      ((markPhase fast W c store buf sleeps).1).map Prime.p
        = store.map Prime.p := by
  intro store
  induction store with
  | nil => intro buf sleeps; rfl
  | cons r rs ih =>
    intro buf sleeps
    by_cases hr : r.nextval < c + W
    · simp only [markPhase, if_pos hr, List.map_cons, ih]
    · simp only [markPhase, if_neg hr, List.map_cons, ih]

/-- The mark phase preserves the record invariant of claim C5: each rewrite
only adds a multiple of `p` to `nextval`. -/
theorem markPhase_inv (fast : Bool) (W c : Nat) :
    ∀ store buf sleeps,
      (∀ r ∈ store, r.p ∣ r.nextval ∧ r.p < r.nextval) →
      ∀ r ∈ (markPhase fast W c store buf sleeps).1,
        r.p ∣ r.nextval ∧ r.p < r.nextval := by
  intro store
  induction store with
  | nil => intro buf sleeps _ r hr; simp [markPhase] at hr
  | cons a rs ih =>
    intro buf sleeps hstore r hr
    have ha := hstore a (by simp)
    have hrs : ∀ r ∈ rs, r.p ∣ r.nextval ∧ r.p < r.nextval :=
      fun r hr => hstore r (by simp [hr])
    by_cases h : a.nextval < c + W
    · simp only [markPhase, if_pos h, List.mem_cons] at hr
      rcases hr with hr | hr
      · subst hr
        obtain ⟨j, hj⟩ := markLoop_add fast 1000000 a.p W c a.nextval buf sleeps
        refine ⟨?_, ?_⟩
        · simp only [hj]
          exact Dvd.dvd.add ha.1 (dvd_mul_left a.p j)
        · simp only [hj]
          omega
      · exact ih _ _ hrs r hr
    · simp only [markPhase, if_neg h, List.mem_cons] at hr
      rcases hr with hr | hr
      · subst hr; exact ha
      · exact ih _ _ hrs r hr

/-- After the mark phase every record's `nextval` is at or beyond the end of
the current window (provided every stored `p` is positive): an entered
record is advanced past the window, a skipped one was already past it. -/
theorem markPhase_ge (fast : Bool) (W c : Nat) :
    ∀ store buf sleeps,
      (∀ r ∈ store, 0 < r.p) →
      ∀ r ∈ (markPhase fast W c store buf sleeps).1, c + W ≤ r.nextval := by
  intro store
  induction store with
  | nil => intro buf sleeps _ r hr; simp [markPhase] at hr
  | cons a rs ih =>
    intro buf sleeps hstore r hr
    have ha := hstore a (by simp)
    have hrs : ∀ r ∈ rs, 0 < r.p := fun r hr => hstore r (by simp [hr])
    by_cases h : a.nextval < c + W
    · simp only [markPhase, if_pos h, List.mem_cons] at hr
      rcases hr with hr | hr
      · subst hr
        exact markLoop_ge fast 1000000 a.p W c a.nextval buf sleeps ha
      · exact ih _ _ hrs r hr
    · simp only [markPhase, if_neg h, List.mem_cons] at hr
      rcases hr with hr | hr
      · subst hr; omega
      · exact ih _ _ hrs r hr

/-- The fast flag and the incoming sleep count influence neither the store
nor the buffer produced by the mark phase. -/
theorem markPhase_indep (f₁ f₂ : Bool) (W c : Nat) :
    ∀ store buf s₁ s₂,
      (markPhase f₁ W c store buf s₁).1 = (markPhase f₂ W c store buf s₂).1
      ∧ (markPhase f₁ W c store buf s₁).2.1
        = (markPhase f₂ W c store buf s₂).2.1 := by
  intro store
  induction store with
  | nil => intro buf s₁ s₂; exact ⟨rfl, rfl⟩
  | cons a rs ih =>
    intro buf s₁ s₂
    by_cases h : a.nextval < c + W
    · simp only [markPhase, if_pos h]
      obtain ⟨hnv, hbuf⟩ := markLoop_indep f₁ f₂ 1000000 a.p W c
        (c + W - a.nextval) a.nextval buf s₁ s₂ le_rfl
      rw [hnv, hbuf]
      obtain ⟨hs, hb⟩ := ih (markLoop f₂ 1000000 a.p W c a.nextval buf s₂).2.1
        (markLoop f₁ 1000000 a.p W c a.nextval buf s₁).2.2
        (markLoop f₂ 1000000 a.p W c a.nextval buf s₂).2.2
      exact ⟨by rw [hs], hb⟩
    · simp only [markPhase, if_neg h]
      obtain ⟨hs, hb⟩ := ih buf s₁ s₂
      exact ⟨by simp only [hs], hb⟩

/-! ### Facts about the discover phase -/

/-- Structure of the records appended by the discover phase: they extend the
accumulator at the end; each is created for a candidate in `[pot, pot + n)`
with `nextval` obtained from `p + p` by adding multiples of `p`, advanced to
or beyond the end of the window; and their `p` values are strictly
ascending. -/
theorem discoverFrom_shape (fast : Bool) (W c : Nat) :
    ∀ n pot buf acc sleeps,
      ∃ l, (discoverFrom fast W c pot n buf acc sleeps).1 = acc ++ l
        ∧ (∀ r ∈ l, pot ≤ r.p ∧ r.p < pot + n
             ∧ (∃ j, r.nextval = r.p + r.p + j * r.p)
             ∧ (0 < r.p → c + W ≤ r.nextval))
        ∧ List.Pairwise (fun a b => a.p < b.p) l := by
  intro n
  induction n with
  | zero =>
    intro pot buf acc sleeps
    exact ⟨[], by simp [discoverFrom], by simp, by simp⟩
  | succ n ih =>
    intro pot buf acc sleeps
    by_cases hc : pot - c < W ∧ buf.getD (pot - c) false = true
    · simp only [discoverFrom, if_pos hc]
      obtain ⟨l', hl', hmem, hpair⟩ :=
        ih (pot + 1) (markLoop fast 100000 pot W c (pot + pot) buf sleeps).2.1
          (acc ++ [⟨pot, (markLoop fast 100000 pot W c (pot + pot) buf sleeps).1⟩])
          (markLoop fast 100000 pot W c (pot + pot) buf sleeps).2.2
      refine ⟨⟨pot, (markLoop fast 100000 pot W c (pot + pot) buf sleeps).1⟩ :: l',
        by rw [hl']; simp, ?_, ?_⟩
      · intro r hr
        rcases List.mem_cons.1 hr with hr | hr
        · subst hr
          refine ⟨le_rfl, by show pot < pot + (n + 1); omega, ?_, ?_⟩
          · obtain ⟨j, hj⟩ := markLoop_add fast 100000 pot W c (pot + pot) buf sleeps
            exact ⟨j, hj⟩
          · intro hp
            exact markLoop_ge fast 100000 pot W c (pot + pot) buf sleeps hp
        · obtain ⟨h1, h2, h3, h4⟩ := hmem r hr
          exact ⟨by omega, by omega, h3, h4⟩
      · refine List.pairwise_cons.2 ⟨?_, hpair⟩
        intro b hb
        have := (hmem b hb).1
        show pot < b.p
        omega
    · simp only [discoverFrom, if_neg hc]
      obtain ⟨l', hl', hmem, hpair⟩ := ih (pot + 1) buf acc sleeps
      refine ⟨l', hl', ?_, hpair⟩
      intro r hr
      obtain ⟨h1, h2, h3, h4⟩ := hmem r hr
      exact ⟨by omega, by omega, h3, h4⟩

/-- The fast flag and the incoming sleep count do not influence the records
appended by the discover phase. -/
theorem discoverFrom_indep (f₁ f₂ : Bool) (W c : Nat) :
    ∀ n pot buf acc s₁ s₂,
      (discoverFrom f₁ W c pot n buf acc s₁).1
        = (discoverFrom f₂ W c pot n buf acc s₂).1 := by
  intro n
  induction n with
  | zero => intro pot buf acc s₁ s₂; rfl
  | succ n ih =>
    intro pot buf acc s₁ s₂
    by_cases hc : pot - c < W ∧ buf.getD (pot - c) false = true
    · simp only [discoverFrom, if_pos hc]
      obtain ⟨hnv, hbuf⟩ := markLoop_indep f₁ f₂ 100000 pot W c
        (c + W - (pot + pot)) (pot + pot) buf s₁ s₂ le_rfl
      rw [hnv, hbuf]
      exact ih (pot + 1) (markLoop f₂ 100000 pot W c (pot + pot) buf s₂).2.1
        (acc ++ [⟨pot, (markLoop f₂ 100000 pot W c (pot + pot) buf s₂).1⟩])
        (markLoop f₁ 100000 pot W c (pot + pot) buf s₁).2.2
        (markLoop f₂ 100000 pot W c (pot + pot) buf s₂).2.2
    · simp only [discoverFrom, if_neg hc]
      exact ih (pot + 1) buf acc s₁ s₂

/-! ### Facts about one whole window -/

/-- A window only appends records: the previous `p`-sequence is a prefix of
the new one (mark rewrites keep every `p` and every position; discover
appends at end-of-file). -/
theorem windowStep_appends (fast : Bool) (W c : Nat) (store : List Prime)
    (sleeps : Nat) :
    store.map Prime.p <+: ((windowStep fast W c store sleeps).1).map Prime.p := by
  obtain ⟨l, hl, -, -⟩ := discoverFrom_shape fast W c
    (c + W - (if c = 0 then 2 else c)) (if c = 0 then 2 else c)
    (markPhase fast W c store (List.replicate W true) sleeps).2.1 []
    (markPhase fast W c store (List.replicate W true) sleeps).2.2
  refine ⟨l.map Prime.p, ?_⟩
  simp only [windowStep, List.map_append, markPhase_map_p, hl, List.nil_append]

/-- One window preserves the record invariant of claim C5: old records only
gain multiples of their `p`; new records start at `p + p` and are advanced
by multiples of `p`, and their `p` is at least `start_p ≥ 1`. -/
theorem windowStep_inv (fast : Bool) (W c : Nat) (store : List Prime)
    (sleeps : Nat)
    (hstore : ∀ r ∈ store, r.p ∣ r.nextval ∧ r.p < r.nextval) :
    ∀ r ∈ (windowStep fast W c store sleeps).1,
      r.p ∣ r.nextval ∧ r.p < r.nextval := by
  intro r hr
  obtain ⟨l, hl, hmem, -⟩ := discoverFrom_shape fast W c
    (c + W - (if c = 0 then 2 else c)) (if c = 0 then 2 else c)
    (markPhase fast W c store (List.replicate W true) sleeps).2.1 []
    (markPhase fast W c store (List.replicate W true) sleeps).2.2
  simp only [windowStep, hl, List.nil_append, List.mem_append] at hr
  rcases hr with hr | hr
  · exact markPhase_inv fast W c store _ sleeps hstore r hr
  · obtain ⟨h1, -, ⟨j, hj⟩, -⟩ := hmem r hr
    have hp : 0 < r.p := by
      by_cases hc : c = 0
      · simp only [hc, if_pos] at h1; omega
      · rw [if_neg hc] at h1; omega
    constructor
    · rw [hj]
      exact dvd_add (dvd_add dvd_rfl dvd_rfl) (dvd_mul_left r.p j)
    · have hjp : 0 ≤ j * r.p := Nat.zero_le _
      omega

/-- After one window every record's `nextval` is at or beyond the start of
the next window (provided every stored `p` is positive). -/
theorem windowStep_ge (fast : Bool) (W c : Nat) (store : List Prime)
    (sleeps : Nat) (hstore : ∀ r ∈ store, 0 < r.p) :
    ∀ r ∈ (windowStep fast W c store sleeps).1, c + W ≤ r.nextval := by
  intro r hr
  obtain ⟨l, hl, hmem, -⟩ := discoverFrom_shape fast W c
    (c + W - (if c = 0 then 2 else c)) (if c = 0 then 2 else c)
    (markPhase fast W c store (List.replicate W true) sleeps).2.1 []
    (markPhase fast W c store (List.replicate W true) sleeps).2.2
  simp only [windowStep, hl, List.nil_append, List.mem_append] at hr
  rcases hr with hr | hr
  · exact markPhase_ge fast W c store _ sleeps hstore r hr
  · obtain ⟨h1, -, -, h4⟩ := hmem r hr
    apply h4
    by_cases hc : c = 0
    · simp only [hc, if_pos] at h1; omega
    · rw [if_neg hc] at h1; omega

/-- One window keeps the `p`-sequence strictly ascending, and every record
after the window at start `c` has `p < c + W`. -/
theorem windowStep_sorted (fast : Bool) (W c : Nat) (store : List Prime)
    (sleeps : Nat)
    (hsort : List.Pairwise (· < ·) (store.map Prime.p))
    (hlt : ∀ r ∈ store, r.p < c) :
    List.Pairwise (· < ·) (((windowStep fast W c store sleeps).1).map Prime.p)
    ∧ ∀ r ∈ (windowStep fast W c store sleeps).1, r.p < c + W := by
  obtain ⟨l, hl, hmem, hpair⟩ := discoverFrom_shape fast W c
    (c + W - (if c = 0 then 2 else c)) (if c = 0 then 2 else c)
    (markPhase fast W c store (List.replicate W true) sleeps).2.1 []
    (markPhase fast W c store (List.replicate W true) sleeps).2.2
  have hmap : ((windowStep fast W c store sleeps).1).map Prime.p
      = store.map Prime.p ++ l.map Prime.p := by
    simp only [windowStep, List.map_append, markPhase_map_p, hl, List.nil_append]
  have hstart : c ≤ (if c = 0 then 2 else c) := by
    by_cases hc : c = 0
    · simp [hc]
    · simp [hc]
  have hbound : ∀ r ∈ l, r.p < c + W := by
    intro r hr
    obtain ⟨h1, h2, -, -⟩ := hmem r hr
    omega
  constructor
  · rw [hmap]
    refine List.pairwise_append.2 ⟨hsort, ?_, ?_⟩
    · exact (List.pairwise_map).2 hpair
    · intro a ha b hb
      obtain ⟨ra, hra, hrap⟩ := List.mem_map.1 ha
      obtain ⟨rb, hrb, hrbp⟩ := List.mem_map.1 hb
      have h1 := hlt ra hra
      have h2 := (hmem rb hrb).1
      omega
  · intro r hr
    simp only [windowStep, hl, List.nil_append, List.mem_append] at hr
    rcases hr with hr | hr
    · have : r.p ∈ ((markPhase fast W c store (List.replicate W true) sleeps).1).map
          Prime.p := List.mem_map.2 ⟨r, hr, rfl⟩
      rw [markPhase_map_p] at this
      obtain ⟨r0, hr0, hr0p⟩ := List.mem_map.1 this
      have := hlt r0 hr0
      omega
    · exact hbound r hr

/-- The fast flag and the incoming sleep count do not influence the store a
window produces. -/
theorem windowStep_indep (f₁ f₂ : Bool) (W c : Nat) (store : List Prime)
    (s₁ s₂ : Nat) :
    (windowStep f₁ W c store s₁).1 = (windowStep f₂ W c store s₂).1 := by
  obtain ⟨hm, hb⟩ := markPhase_indep f₁ f₂ W c store (List.replicate W true) s₁ s₂
  simp only [windowStep, hm, hb]
  congr 1
  exact discoverFrom_indep f₁ f₂ W c (c + W - (if c = 0 then 2 else c))
    (if c = 0 then 2 else c)
    (markPhase f₂ W c store (List.replicate W true) s₂).2.1 []
    (markPhase f₁ W c store (List.replicate W true) s₁).2.2
    (markPhase f₂ W c store (List.replicate W true) s₂).2.2

/-! ### Facts about the outer loop -/

/-- One unfolding of `sieveLoop` when the loop is entered. -/
theorem sieveLoop_eq_pos (fast : Bool) (W U c : Nat) (store : List Prime)
    (sleeps : Nat) (h : c < U ∧ 0 < W) :
    sieveLoop fast W U c store sleeps
      = sieveLoop fast W U (c + W) (windowStep fast W c store sleeps).1
          (windowStep fast W c store sleeps).2 := by
  conv_lhs => rw [sieveLoop]
  rw [dif_pos h]

/-- One unfolding of `sieveLoop` when the loop exits. -/
theorem sieveLoop_eq_neg (fast : Bool) (W U c : Nat) (store : List Prime)
    (sleeps : Nat) (h : ¬(c < U ∧ 0 < W)) :
    sieveLoop fast W U c store sleeps = (store, sleeps) := by
  conv_lhs => rw [sieveLoop]
  rw [dif_neg h]

/-- Any window-indexed invariant preserved by `windowStep` carries from the
state at the start of any window to the final store. -/
theorem sieveLoop_invc (fast : Bool) (W U : Nat) (P : Nat → List Prime → Prop)
    (hstep : ∀ c store sleeps, P c store →
      P (c + W) ((windowStep fast W c store sleeps).1)) :
    ∀ k c store sleeps, U - c ≤ k → P c store →
      ∃ c', P c' ((sieveLoop fast W U c store sleeps).1) := by
  intro k
  induction k with
  | zero =>
    intro c store sleeps hk hP
    rw [sieveLoop_eq_neg fast W U c store sleeps (by omega)]
    exact ⟨c, hP⟩
  | succ k ih =>
    intro c store sleeps hk hP
    by_cases hg : c < U ∧ 0 < W
    · rw [sieveLoop_eq_pos fast W U c store sleeps hg]
      exact ih (c + W) _ _ (by omega) (hstep c store sleeps hP)
    · rw [sieveLoop_eq_neg fast W U c store sleeps hg]
      exact ⟨c, hP⟩

/-- The fast flag and the incoming sleep count do not influence the store
the outer loop produces. -/
theorem sieveLoop_indep (f₁ f₂ : Bool) (W U : Nat) :
    ∀ k c store s₁ s₂, U - c ≤ k →
      (sieveLoop f₁ W U c store s₁).1 = (sieveLoop f₂ W U c store s₂).1 := by
  intro k
  induction k with
  | zero =>
    intro c store s₁ s₂ hk
    rw [sieveLoop_eq_neg f₁ W U c store s₁ (by omega),
      sieveLoop_eq_neg f₂ W U c store s₂ (by omega)]
  | succ k ih =>
    intro c store s₁ s₂ hk
    by_cases hg : c < U ∧ 0 < W
    · rw [sieveLoop_eq_pos f₁ W U c store s₁ hg,
        sieveLoop_eq_pos f₂ W U c store s₂ hg,
        windowStep_indep f₁ f₂ W c store s₁ s₂]
      exact ih (c + W) _ _ _ (by omega)
    · rw [sieveLoop_eq_neg f₁ W U c store s₁ hg,
        sieveLoop_eq_neg f₂ W U c store s₂ hg]

/-! ### Facts about the byte-level record store -/

theorem u64ToBytes_length (x : Nat) : (u64ToBytes x).length = 8 := rfl

theorem prime_write_length (r : Prime) : (prime_write r).length = 16 := rfl

/-- Decoding inverts encoding for any value that fits in a u64. -/
theorem u64_roundtrip (x : Nat) (hx : x < 18446744073709551616) :
    u64FromBytes (u64ToBytes x) = x := by
  simp only [u64ToBytes, u64FromBytes, List.take, List.foldr]
  omega

/-- Decoding only looks at the first eight bytes. -/
theorem u64FromBytes_append (bs l : List Nat) (h : bs.length = 8) :
    u64FromBytes (bs ++ l) = u64FromBytes bs := by
  unfold u64FromBytes
  rw [List.take_append_of_le_length (by omega)]

/-- Reading at a position where a full record was written returns exactly
that record and leaves the cursor after its 16 bytes. -/
theorem prime_read_cons (r : Prime) (rest : List Nat)
    (hp : r.p < 18446744073709551616) (hn : r.nextval < 18446744073709551616) :
    prime_read (prime_write r ++ rest) = Except.ok (some (r, rest)) := by
  have h1 : (prime_write r ++ rest).take 8 = u64ToBytes r.p := by
    unfold prime_write
    rw [List.append_assoc,
      List.take_append_of_le_length (by rw [u64ToBytes_length]),
      List.take_of_length_le (by rw [u64ToBytes_length])]
  have h2 : (prime_write r ++ rest).drop 8 = u64ToBytes r.nextval ++ rest := by
    unfold prime_write
    rw [List.append_assoc, ← u64ToBytes_length r.p, List.drop_left]
  have h3 : (prime_write r ++ rest).drop 16 = rest := by
    rw [← prime_write_length r, List.drop_left]
  unfold prime_read
  rw [if_pos (by simp [prime_write_length])]
  rw [h1, h2, h3, u64_roundtrip r.p hp,
    u64FromBytes_append _ _ (u64ToBytes_length r.nextval),
    u64_roundtrip r.nextval hn]

/-- Reading with fewer than 16 bytes left returns the sentinel. -/
theorem prime_read_short (bytes : List Nat) (h : bytes.length < 16) :
    prime_read bytes = Except.ok none := by
  unfold prime_read
  rw [if_neg (by omega)]

/-- Reading from an in-memory byte list cannot produce an I/O error. -/
theorem prime_read_ne_error (bytes : List Nat) (e : String) :
    prime_read bytes ≠ Except.error e := by
  unfold prime_read
  split <;> simp

/-- A successful read consumed exactly 16 bytes. -/
theorem prime_read_some_len (bytes : List Nat) (r : Prime) (rest : List Nat)
    (h : prime_read bytes = Except.ok (some (r, rest))) :
    rest = bytes.drop 16 ∧ 16 ≤ bytes.length := by
  unfold prime_read at h
  split at h
  · simp only [Except.ok.injEq, Option.some.injEq, Prod.mk.injEq] at h
    exact ⟨h.2.symm, by omega⟩
  · simp at h

/-- One unfolding of the export loop when a record is read. -/
theorem prime_bin2csv_eq_some (fast : Bool) (bytes : List Nat)
    (count sleeps : Nat) (r : Prime) (rest : List Nat)
    (h : prime_read bytes = Except.ok (some (r, rest))) :
    prime_bin2csv fast bytes count sleeps =
      (primeLine r ::
        (prime_bin2csv fast rest (count + 1)
          (if fast = false ∧ (count + 1) % 10000 = 0 then sleeps + 1
            else sleeps)).1,
        (prime_bin2csv fast rest (count + 1)
          (if fast = false ∧ (count + 1) % 10000 = 0 then sleeps + 1
            else sleeps)).2) := by
  conv_lhs => rw [prime_bin2csv]
  split
  next r' rest' h' =>
    rw [h] at h'
    simp only [Except.ok.injEq, Option.some.injEq, Prod.mk.injEq] at h'
    obtain ⟨h1, h2⟩ := h'
    subst h1
    subst h2
    rfl
  next h' =>
    rw [h] at h'
    simp at h'
  next e h' =>
    rw [h] at h'
    simp at h'

/-- One unfolding of the export loop at end-of-file. -/
theorem prime_bin2csv_eq_none (fast : Bool) (bytes : List Nat)
    (count sleeps : Nat) (h : prime_read bytes = Except.ok none) :
    prime_bin2csv fast bytes count sleeps = ([], count, sleeps) := by
  conv_lhs => rw [prime_bin2csv]
  split
  next r' rest' h' =>
    rw [h] at h'
    simp at h'
  all_goals rfl

/-- The export loop on a store of `N` well-formed records: it emits one line
per record in store order and counts up by `N`. -/
theorem prime_bin2csv_run (fast : Bool) :
    ∀ rs : List Prime, ∀ count sleeps : Nat,
      (∀ r ∈ rs, r.p < 18446744073709551616
        ∧ r.nextval < 18446744073709551616) →
      (prime_bin2csv fast (storeBytes rs) count sleeps).1 = rs.map primeLine
      ∧ (prime_bin2csv fast (storeBytes rs) count sleeps).2.1
        = count + rs.length := by
  intro rs
  induction rs with
  | nil =>
    intro count sleeps _
    rw [prime_bin2csv_eq_none fast _ count sleeps
      (prime_read_short _ (by simp [storeBytes]))]
    exact ⟨rfl, rfl⟩
  | cons r rs ih =>
    intro count sleeps h
    have hr := h r (by simp)
    have hcons : storeBytes (r :: rs) = prime_write r ++ storeBytes rs := by
      simp [storeBytes]
    rw [hcons, prime_bin2csv_eq_some fast _ count sleeps r (storeBytes rs)
      (prime_read_cons r _ hr.1 hr.2)]
    obtain ⟨h1, h2⟩ := ih (count + 1)
      (if fast = false ∧ (count + 1) % 10000 = 0 then sleeps + 1 else sleeps)
      (fun r hr => h r (by simp [hr]))
    refine ⟨?_, ?_⟩
    · simp only [List.map_cons, h1]
    · simp only [List.length_cons, h2]
      omega

/-- The fast flag and the incoming sleep count influence neither the lines
the exporter writes nor the count it returns. -/
theorem prime_bin2csv_indep (f₁ f₂ : Bool) :
    ∀ k bytes, bytes.length ≤ k → ∀ count s₁ s₂,
      (prime_bin2csv f₁ bytes count s₁).1 = (prime_bin2csv f₂ bytes count s₂).1
      ∧ (prime_bin2csv f₁ bytes count s₁).2.1
        = (prime_bin2csv f₂ bytes count s₂).2.1 := by
  intro k
  induction k with
  | zero =>
    intro bytes hk count s₁ s₂
    rw [prime_bin2csv_eq_none f₁ bytes count s₁ (prime_read_short _ (by omega)),
      prime_bin2csv_eq_none f₂ bytes count s₂ (prime_read_short _ (by omega))]
    exact ⟨rfl, rfl⟩
  | succ k ih =>
    intro bytes hk count s₁ s₂
    rcases hpr : prime_read bytes with e | ro
    · exact absurd hpr (prime_read_ne_error bytes e)
    · rcases ro with - | ⟨r, rest⟩
      · rw [prime_bin2csv_eq_none f₁ bytes count s₁ hpr,
          prime_bin2csv_eq_none f₂ bytes count s₂ hpr]
        exact ⟨rfl, rfl⟩
      · obtain ⟨hrest, hlen⟩ := prime_read_some_len bytes r rest hpr
        rw [prime_bin2csv_eq_some f₁ bytes count s₁ r rest hpr,
          prime_bin2csv_eq_some f₂ bytes count s₂ r rest hpr]
        obtain ⟨h1, h2⟩ := ih rest (by rw [hrest]; simp; omega) (count + 1)
          (if f₁ = false ∧ (count + 1) % 10000 = 0 then s₁ + 1 else s₁)
          (if f₂ = false ∧ (count + 1) % 10000 = 0 then s₂ + 1 else s₂)
        exact ⟨by rw [h1], h2⟩

/-! ### Facts about the loop counter -/

/-- With `W = 0` the loop counter never moves: `current_window += 0`. -/
theorem currentAt_zero_width : ∀ n, currentAt 0 n = 0 := by
  intro n
  induction n with
  | zero => rfl
  | succ n ih => simp [currentAt, ih]

/-- As long as no u64 wraparound occurs, the counter after `n` iterations
is exactly `n * W`. -/
theorem currentAt_eq (W : Nat) : ∀ n, n * W < 2 ^ 64 → currentAt W n = n * W := by
  intro n
  induction n with
  | zero => intro _; simp [currentAt]
  | succ n ih =>
    intro h
    have hle : n * W ≤ (n + 1) * W := Nat.mul_le_mul_right W (by omega)
    have hstep : n * W + W = (n + 1) * W := by ring
    rw [currentAt, ih (by omega), hstep, Nat.mod_eq_of_lt h]

/-! ### The claims -/

/-- C1 (code_bug evidence): with window size 1 and upper limit 3 the final
store is the single record `(p = 1, nextval = 3)`.  The prime 2 of `[2, 3)`
never appears and the non-prime 1 does, refuting the claimed
"appears iff prime" equivalence for this run: the discover phase starts at
`current_window` (main.rs line 129) instead of the spec's
`max(2, current_window)`, so the window starting at 1 records 1 as a prime,
and its multiples then mark every later candidate composite. -/
theorem discover_phase_start_bug : (sieve 1 3 false).1 = [⟨1, 3⟩] := by
  simp [sieve, sieveLoop, windowStep, markPhase, discoverFrom, markLoop,
    List.replicate]

/-- C2 (code_bug evidence): with window size 4 and upper limit 3 the final
store is `[(2, 4), (3, 6)]`; in particular the record with `p = 3 ≥ U = 3`
was appended.  The discover phase scans to `current_window + buffer_size`
(main.rs line 130) without clamping the bound to the upper limit, so when
`U` falls strictly inside the last window the primes of `[U, current + W)`
are appended as well. -/
theorem last_window_not_clamped :
    (sieve 4 3 false).1 = [⟨2, 4⟩, ⟨3, 6⟩]
    ∧ Prime.mk 3 6 ∈ (sieve 4 3 false).1 := by
  have h : (sieve 4 3 false).1 = [⟨2, 4⟩, ⟨3, 6⟩] := by
    simp [sieve, sieveLoop, windowStep, markPhase, discoverFrom, markLoop,
      List.replicate]
  exact ⟨h, by rw [h]; simp⟩

/-- C3 (counterexample): the claim "U = 2 yields exactly one record (2, 4)
and U = 0 or U = 1 yields zero records, for any positive window size" fails:
with window size 4, U = 2 yields the two records (2, 4) and (3, 6); with
window size 2, U = 2 yields zero records; and with window size 3, U = 1
yields one record. -/
theorem boundary_claim_cex :
    (sieve 4 2 false).1 = [⟨2, 4⟩, ⟨3, 6⟩]
    ∧ (sieve 2 2 false).1 = []
    ∧ (sieve 3 1 false).1 = [⟨2, 4⟩] := by
  refine ⟨?_, ?_, ?_⟩ <;>
    simp [sieve, sieveLoop, windowStep, markPhase, discoverFrom, markLoop,
      List.replicate]

/-- C3 (amended): U = 0 yields zero records for every window size and fast
setting; for U = 1 and U = 2 the outcome depends on the window size W,
because the whole first window `[0, W)` is sieved without clamping to U:
W = 3, U = 2 gives exactly the one claimed record (2, 4), but W = 2, U = 2
gives zero records and W = 4, U = 2 gives two; likewise U = 1 gives zero
records for W = 2 but one record for W = 3. -/
theorem boundary_behavior :
    (∀ (W : Nat) (fast : Bool), (sieve W 0 fast).1 = [])
    ∧ (sieve 3 2 false).1 = [⟨2, 4⟩]
    ∧ (sieve 2 2 false).1 = []
    ∧ (sieve 4 2 false).1 = [⟨2, 4⟩, ⟨3, 6⟩]
    ∧ (sieve 2 1 false).1 = []
    ∧ (sieve 3 1 false).1 = [⟨2, 4⟩] := by
  refine ⟨?_, ?_, ?_, ?_, ?_, ?_⟩
  · intro W fast
    unfold sieve
    rw [sieveLoop_eq_neg fast W 0 0 [] 0 (by omega)]
  all_goals
    simp [sieve, sieveLoop, windowStep, markPhase, discoverFrom, markLoop,
      List.replicate]

/-- C4 (counterexample): at a truncated record - here 8 stray bytes, more
than zero but fewer than the 16 of a full record - prime_read returns the
"no more records" sentinel `Ok(false)`, not an I/O error: `read_exact`
raises `UnexpectedEof` for any shortfall and the match arm at main.rs line
58 maps every `UnexpectedEof` to the sentinel. -/
theorem truncated_read_cex :
    prime_read [0, 0, 0, 0, 0, 0, 0, 0] = Except.ok none := rfl

/-- C4 (amended): prime_read returns the no-more-records sentinel exactly
when fewer than one full record's worth of bytes (16) remains at the
cursor - a truncated trailing record is treated the same as clean
end-of-file, never as an error. -/
theorem truncated_read_sentinel :
    ∀ bytes : List Nat,
      prime_read bytes = Except.ok none ↔ bytes.length < 16 := by
  intro bytes
  unfold prime_read
  by_cases h : 16 ≤ bytes.length
  · rw [if_pos h]
    simp
    omega
  · rw [if_neg h]
    simp
    omega

/-- C5: starting from any store whose records all satisfy the invariant
"nextval is a multiple of p and strictly greater than p", every record in
the store at every later window boundary - in particular in the final
store - still satisfies it: records are created with `nextval = p + p`
(main.rs line 134) and `nextval` is only ever advanced by adding `p`
(main.rs lines 117, 145), and the initial store of a run is empty. -/
theorem record_invariant :
    ∀ (fast : Bool) (W U c : Nat) (store : List Prime) (sleeps : Nat),
      (∀ r ∈ store, r.p ∣ r.nextval ∧ r.p < r.nextval) →
      ∀ r ∈ (sieveLoop fast W U c store sleeps).1,
        r.p ∣ r.nextval ∧ r.p < r.nextval := by
  intro fast W U c store sleeps hstore
  obtain ⟨c', h⟩ := sieveLoop_invc fast W U
    (fun _ st => ∀ r ∈ st, r.p ∣ r.nextval ∧ r.p < r.nextval)
    (fun c st sl hP => windowStep_inv fast W c st sl hP)
    (U - c) c store sleeps le_rfl hstore
  exact h

/-- Witness for C5 at the actual initial state of a run (empty store). -/
theorem record_invariant_witness :
    (∀ r ∈ ([] : List Prime), r.p ∣ r.nextval ∧ r.p < r.nextval)
    ∧ ∀ r ∈ (sieveLoop false 3 7 0 [] 0).1, r.p ∣ r.nextval ∧ r.p < r.nextval :=
  ⟨by simp, record_invariant false 3 7 0 [] 0 (by simp)⟩

/-- C6: the mark phase of a window never changes the sequence of `p` values
(an in-place rewrite touches only the `nextval` bytes of the record just
read); a whole window only extends the `p`-sequence at the end; and for any
store that is strictly ascending in `p` with all `p` below the current
window start - as the empty initial store is - the store stays strictly
ascending in `p`, in file order, to the end of the run. -/
theorem store_order :
    ∀ (fast : Bool) (W U c : Nat) (store : List Prime) (buf : List Bool)
      (sleeps : Nat),
      ((markPhase fast W c store buf sleeps).1).map Prime.p = store.map Prime.p
      ∧ store.map Prime.p <+: ((windowStep fast W c store sleeps).1).map Prime.p
      ∧ ((List.Pairwise (· < ·) (store.map Prime.p) ∧ ∀ r ∈ store, r.p < c) →
          List.Pairwise (· < ·)
            (((sieveLoop fast W U c store sleeps).1).map Prime.p)) := by
  intro fast W U c store buf sleeps
  refine ⟨markPhase_map_p fast W c store buf sleeps,
    windowStep_appends fast W c store sleeps, ?_⟩
  intro ⟨hsort, hlt⟩
  obtain ⟨c', h⟩ := sieveLoop_invc fast W U
    (fun c st => List.Pairwise (· < ·) (st.map Prime.p) ∧ ∀ r ∈ st, r.p < c)
    (fun c st sl hP => windowStep_sorted fast W c st sl hP.1 hP.2)
    (U - c) c store sleeps le_rfl ⟨hsort, hlt⟩
  exact h.1

/-- Witness for C6 on a concrete sorted store strictly below the window
start. -/
theorem store_order_witness :
    (List.Pairwise (· < ·) (([⟨2, 4⟩] : List Prime).map Prime.p)
      ∧ ∀ r ∈ ([⟨2, 4⟩] : List Prime), r.p < 3)
    ∧ List.Pairwise (· < ·)
        (((sieveLoop false 2 9 3 [⟨2, 4⟩] 0).1).map Prime.p) := by
  have h : List.Pairwise (· < ·) (([⟨2, 4⟩] : List Prime).map Prime.p)
      ∧ ∀ r ∈ ([⟨2, 4⟩] : List Prime), r.p < 3 := by
    constructor
    · simp
    · intro r hr
      simp only [List.mem_singleton] at hr
      subst hr
      show 2 < 3
      omega
  exact ⟨h, (store_order false 2 9 3 [⟨2, 4⟩] [] 0).2.2 h⟩

/-- C7: runs that differ only in the fast flag produce identical stores
(same records, same values, same order), and the exporter writes the same
lines and returns the same count: the flag guards nothing but
`thread::sleep` calls (main.rs lines 114-116, 140-142, 85-87). -/
theorem fast_flag_observational :
    (∀ (W U : Nat) (f₁ f₂ : Bool), (sieve W U f₁).1 = (sieve W U f₂).1)
    ∧ ∀ (bytes : List Nat) (count sleeps : Nat) (f₁ f₂ : Bool),
        (prime_bin2csv f₁ bytes count sleeps).1
          = (prime_bin2csv f₂ bytes count sleeps).1
        ∧ (prime_bin2csv f₁ bytes count sleeps).2.1
          = (prime_bin2csv f₂ bytes count sleeps).2.1 := by
  constructor
  · intro W U f₁ f₂
    exact sieveLoop_indep f₁ f₂ W U (U - 0) 0 [] 0 0 le_rfl
  · intro bytes count sleeps f₁ f₂
    exact prime_bin2csv_indep f₁ f₂ bytes.length bytes le_rfl count sleeps sleeps

/-- C8: on a store of N well-formed records the exporter writes exactly N
newline-terminated lines, the k-th being "p,nextval" for the k-th record in
file order, and returns N.  (The model consumes the byte list read-only:
prime_bin2csv never writes to its input file.) -/
theorem bin2csv_exports :
    ∀ (fast : Bool) (rs : List Prime),
      (∀ r ∈ rs, r.p < 18446744073709551616
        ∧ r.nextval < 18446744073709551616) →
      (prime_bin2csv fast (storeBytes rs) 0 0).1 = rs.map primeLine
      ∧ (prime_bin2csv fast (storeBytes rs) 0 0).2.1 = rs.length := by
  intro fast rs h
  obtain ⟨h1, h2⟩ := prime_bin2csv_run fast rs 0 0 h
  exact ⟨h1, by rw [h2]; omega⟩

/-- Witness for C8 on a one-record store. -/
theorem bin2csv_exports_witness :
    (∀ r ∈ ([⟨2, 4⟩] : List Prime), r.p < 18446744073709551616
      ∧ r.nextval < 18446744073709551616)
    ∧ (prime_bin2csv false (storeBytes [⟨2, 4⟩]) 0 0).1
        = ([⟨2, 4⟩] : List Prime).map primeLine
    ∧ (prime_bin2csv false (storeBytes [⟨2, 4⟩]) 0 0).2.1
        = ([⟨2, 4⟩] : List Prime).length := by
  have h : ∀ r ∈ ([⟨2, 4⟩] : List Prime), r.p < 18446744073709551616
      ∧ r.nextval < 18446744073709551616 := by
    simp
  exact ⟨h, bin2csv_exports false [⟨2, 4⟩] h⟩

/-- C9: if at the start of a window every stored record has a positive `p`
and `nextval ≥ current_window` (so `nextval - current_window` never
underflows and every marking index lands inside the window buffer), then
after the window every record's `nextval` is at least the next window's
start `current_window + W` - re-establishing the bound for the next mark
phase; the initial store is empty, so the bound holds at every window of a
run. -/
theorem window_start_bound :
    ∀ (fast : Bool) (W c : Nat) (store : List Prime) (sleeps : Nat),
      (∀ r ∈ store, 0 < r.p ∧ c ≤ r.nextval) →
      ∀ r ∈ (windowStep fast W c store sleeps).1, c + W ≤ r.nextval := by
  intro fast W c store sleeps h
  exact windowStep_ge fast W c store sleeps (fun r hr => (h r hr).1)

/-- Witness for C9 on a concrete store at window start 2. -/
theorem window_start_bound_witness :
    (∀ r ∈ ([⟨2, 4⟩] : List Prime), 0 < r.p ∧ 2 ≤ r.nextval)
    ∧ ∀ r ∈ (windowStep false 3 2 [⟨2, 4⟩] 0).1, 2 + 3 ≤ r.nextval := by
  have h : ∀ r ∈ ([⟨2, 4⟩] : List Prime), 0 < r.p ∧ 2 ≤ r.nextval := by
    simp
  exact ⟨h, window_start_bound false 3 2 [⟨2, 4⟩] 0 h⟩

/-- C10: for any window size `W ≥ 1` and upper limit `U` with `U + W` within
the u64 range, the outer loop's counter strictly climbs by `W` per iteration
and reaches or passes `U` after finitely many windows, with every earlier
value still below `U` (so the loop terminates exactly there); for `W = 0`
the counter never changes, so for any positive `U` the loop condition stays
true forever. -/
theorem outer_loop_termination :
    (∀ W U : Nat, 1 ≤ W → U + W ≤ 2 ^ 64 →
      ∃ n, (∀ m, m < n → currentAt W m < U) ∧ U ≤ currentAt W n)
    ∧ ∀ U : Nat, 0 < U → ∀ n, currentAt 0 n < U := by
  constructor
  · intro W U hW hU
    have hdm := Nat.div_add_mod (U + W - 1) W
    have hrW : (U + W - 1) % W < W := Nat.mod_lt _ (by omega)
    refine ⟨(U + W - 1) / W, ?_, ?_⟩
    · intro m hm
      have h1 : (m + 1) * W ≤ ((U + W - 1) / W) * W :=
        Nat.mul_le_mul_right W (by omega)
      have h2 : (m + 1) * W = m * W + W := by ring
      have h3 : ((U + W - 1) / W) * W = W * ((U + W - 1) / W) := by ring
      rw [currentAt_eq W m (by omega)]
      omega
    · have h3 : ((U + W - 1) / W) * W = W * ((U + W - 1) / W) := by ring
      rw [currentAt_eq W ((U + W - 1) / W) (by omega)]
      omega
  · intro U hU n
    rw [currentAt_zero_width n]
    omega

/-- Witness for C10: W = 3 and U = 7 terminate; W = 0 never reaches U = 5. -/
theorem outer_loop_termination_witness :
    (1 ≤ 3 ∧ 7 + 3 ≤ 2 ^ 64
      ∧ ∃ n, (∀ m, m < n → currentAt 3 m < 7) ∧ 7 ≤ currentAt 3 n)
    ∧ (0 < 5 ∧ currentAt 0 2 < 5) :=
  ⟨⟨by norm_num, by norm_num,
      outer_loop_termination.1 3 7 (by norm_num) (by norm_num)⟩,
    ⟨by norm_num, outer_loop_termination.2 5 (by norm_num) 2⟩⟩

end Main
